import Mathlib

/-!
# Verification of the `jobhandler` admission/quiescence state machine

Shallow embedding of the Go package `jobhandler` (file `jobhandler.go`,
given here as `src/unnamed/part_000`).  The handler is a biased atomic
counter `n` (one phantom unit while the handler is running), an atomic
`running` flag, a one-shot broadcast channel `stopChan`, and a
`sync.WaitGroup` `wg` driven by the same deltas as `n`.

Modelling decisions:
* Machine `int64`/`int` values are modelled as `Int`; the package performs
  no arithmetic that can overflow in any realistic run, and the claims are
  about sign conditions, so overflow is not modelled.
* `stopChan` is `Option Bool`: `none` is the nil channel of a zero-value
  handler (a receive on it blocks forever, closing it would panic);
  `some closed` is an allocated channel with its closed flag.
* The `sync.WaitGroup` counter is modelled as the integer `wg`.
  `WaitGroup.Wait` returns exactly when the counter is zero, captured by
  the predicate `WaitAllReturns`.
* A Go `panic` is modelled by the `Res.panicked` constructor, which also
  records the state of the handler at the moment of the abort, so that
  partial updates on the faulting paths stay observable.
* Operations are given sequential (interleaving-free) semantics: each
  exported operation is one atomic step, so the compare-and-swap retry
  loop of `TryN` always succeeds on its first iteration.  The context
  observer spawned by `New` only calls `Stop`, which is modelled directly.
-/

/-- State of a `JobHandler` value, after the Go struct:
`n int64`, `stopChan chan struct{}`, `running atomic.Bool`,
`wg sync.WaitGroup` (its counter). -/
structure JobHandler where
  n        : Int
  stopChan : Option Bool
  running  : Bool
  wg       : Int
deriving DecidableEq, Repr

/-- Result of an operation on the handler: either a normal return value
together with the updated handler, or a Go panic with its message and the
handler state left behind at the abort. -/
inductive Res (α : Type) where
  | ok       : α → JobHandler → Res α
  | panicked : String → JobHandler → Res α
deriving DecidableEq, Repr

/-- The zero value `var jh JobHandler`: all-zero struct, so `n = 0`,
nil `stopChan`, `running = false`, WaitGroup counter `0`. -/
def zeroJH : JobHandler := { n := 0, stopChan := none, running := false, wg := 0 }

/-- `New(ctx)`: `n = 1` (phantom unit), fresh open `stopChan`,
`running = true`, `wg.Add(1)`.  The background context observer only ever
invokes `Stop`, which is modelled as a direct step. -/
def New : JobHandler := { n := 1, stopChan := some false, running := true, wg := 1 }

/-- `TryN(delta)`: reject negative `delta`; fail when not running; the
CAS loop (one iteration in the sequential model) panics on a negative
observed count, fails on a zero observed count, and otherwise adds
`delta` to `n`; on success `wg.Add(delta)` and return true. -/
def TryN (delta : Int) (jh : JobHandler) : Res Bool :=
  if delta < 0 then .ok false jh
  else if jh.running = false then .ok false jh
  else if jh.n < 0 then .panicked "negative job count" jh
  else if jh.n = 0 then .ok false jh
  else .ok true { jh with n := jh.n + delta, wg := jh.wg + delta }

/-- `Try()` is `TryN(1)`. -/
def Try (jh : JobHandler) : Res Bool := TryN 1 jh

/-- `Done()`: `atomic.AddInt64(&jh.n, -1)` happens first (so the
decrement of `n` is visible even on the panicking paths), then the two
fault checks, then `wg.Add(-1)` on the normal path only. -/
def Done (jh : JobHandler) : Res Unit :=
  if jh.n - 1 < 0 then .panicked "negative job count" { jh with n := jh.n - 1 }
  else if jh.n - 1 = 0 ∧ jh.running = true then
    .panicked "zero job count while running, should be at least 1" { jh with n := jh.n - 1 }
  else .ok () { jh with n := jh.n - 1, wg := jh.wg - 1 }

/-- `Stop()`: `running.CompareAndSwap(true, false)` fails on an already
stopped handler (no further action, returns false); otherwise the
decrement of `n` happens, then the negative check, then `close(stopChan)`
(a Go panic on a nil or already closed channel), then `wg.Add(-1)`. -/
def Stop (jh : JobHandler) : Res Bool :=
  if jh.running = false then .ok false jh
  else if jh.n - 1 < 0 then
    .panicked "negative job count" { jh with running := false, n := jh.n - 1 }
  else
    match jh.stopChan with
    | none => .panicked "close of nil channel" { jh with running := false, n := jh.n - 1 }
    | some true =>
      .panicked "close of closed channel" { jh with running := false, n := jh.n - 1 }
    | some false =>
      .ok true
        { jh with running := false, n := jh.n - 1, stopChan := some true, wg := jh.wg - 1 }

/-- `Stopped()` is `!running.Load()`. -/
def Stopped (jh : JobHandler) : Bool := !jh.running

/-- `OnStop()` returns the stop channel itself. -/
def OnStop (jh : JobHandler) : Option Bool := jh.stopChan

/-- A channel value is signalled exactly when it is an allocated, closed
channel; a receive on `none` (nil) blocks forever. -/
def closedChan : Option Bool → Bool
  | some true => true
  | _ => false

/-- `WaitAll()` is `wg.Wait()`: it returns (rather than blocks) exactly
when the WaitGroup counter is zero. -/
def WaitAllReturns (jh : JobHandler) : Prop := jh.wg = 0

instance (jh : JobHandler) : Decidable (WaitAllReturns jh) := by
  unfold WaitAllReturns; infer_instance

/-- `TrySleep(d)`: a `select` racing `<-stopChan` against `<-time.After(d)`.
`stopFires` abstracts the environment: whether the stop signal becomes
ready before the timer does.  A nil `stopChan` can never be received
from, so the timer always wins and the call returns true. -/
def TrySleep (jh : JobHandler) (stopFires : Bool) : Bool :=
  match jh.stopChan with
  | none => true
  | some closed => if closed || stopFires then false else true

/-- `TryFunc(fn)` of the current source (synchronous): `Try()`, and on
success run `fn` on the caller's thread, then `Done()`.  The effect of
`fn` is modelled as a function on an external state `σ`; the returned
pair is (handler outcome, external state after the call). -/
def TryFunc {σ : Type} (fn : σ → σ) (jh : JobHandler) (s : σ) : Res Bool × σ :=
  match Try jh with
  | .panicked m j => (.panicked m j, s)
  | .ok false j => (.ok false j, s)
  | .ok true j =>
    let s1 := fn s
    match Done j with
    | .ok _ j1 => (.ok true j1, s1)
    | .panicked m j1 => (.panicked m j1, s1)

/-! ## Trace semantics for the counter state machine -/

/-- One caller-visible mutating operation on the handler. -/
inductive Op where
  | tryN (delta : Int)
  | done
  | stop
deriving DecidableEq, Repr

/-- Map over the return value of a `Res`, keeping panics. -/
def Res.map {α β : Type} (f : α → β) : Res α → Res β
  | .ok a j => .ok (f a) j
  | .panicked m j => .panicked m j

/-- Apply one operation, discarding the boolean return value. -/
def applyOp (jh : JobHandler) : Op → Res Unit
  | .tryN d => (TryN d jh).map fun _ => ()
  | .done => Done jh
  | .stop => (Stop jh).map fun _ => ()

/-- Run a trace of operations, keeping the running totals `a` (sum of the
deltas of the successful admissions) and `c` (number of completed
`Done` calls).  Returns `none` when some operation panics. -/
def runC (jh : JobHandler) (a c : Int) : List Op → Option (JobHandler × Int × Int)
  | [] => some (jh, a, c)
  | op :: rest =>
    match op with
    | .tryN d =>
      match TryN d jh with
      | .ok true j => runC j (a + d) c rest
      | .ok false j => runC j a c rest
      | .panicked _ _ => none
    | .done =>
      match Done jh with
      | .ok _ j => runC j a (c + 1) rest
      | .panicked _ _ => none
    | .stop =>
      match Stop jh with
      | .ok _ j => runC j a c rest
      | .panicked _ _ => none

/-! ## Bounded-concurrency dispatch of `TryNFuncAsync`

`TryNFuncAsync(delta, limit, fn)` admits the whole batch with
`TryN(delta)`; on success the dispatcher goroutine spawns one goroutine
per index `0 .. delta-1`.  When `limit` (after `if limit <= 0 { limit =
delta }`) is still below `delta`, a buffered channel pre-filled with
`limit` tokens bounds the concurrency: the dispatcher takes a token
before each spawn, and each worker returns its token after `fn(i)` and
`Done()`.  The dispatch is modelled as a small-step transition system;
a worker's whole body (`fn(i)`; `Done()`; token release) is one `finish`
step, so the indices in `active` over-approximate the set of `fn`
invocations that are executing at any instant. -/

/-- `limit` after the `if limit <= 0 { limit = delta }` normalisation. -/
def limitEff (d : Nat) (limit : Int) : Int := if limit ≤ 0 then (d : Int) else limit

/-- Whether the token channel is allocated (`limit < delta` after
normalisation). -/
def limitBounded (d : Nat) (limit : Int) : Prop := limitEff d limit < (d : Int)

instance (d : Nat) (limit : Int) : Decidable (limitBounded d limit) := by
  unfold limitBounded; infer_instance

/-- State of the dispatcher and its workers: the handler, the external
state mutated by `fn`, the loop index of the dispatcher, the tokens
currently in the channel, the indices spawned but not yet finished, and
the indices whose workers have finished. -/
structure DState (σ : Type) where
  jh       : JobHandler
  env      : σ
  nextIdx  : Nat
  tokens   : Nat
  active   : List Nat
  finished : List Nat
deriving Repr

/-- Dispatch state right after a successful `TryN(delta)`: handler `jh`,
external state `s`, no index spawned, and (when bounded) `limit` tokens
pre-filled into the channel. -/
def initDState {σ : Type} (d : Nat) (limit : Int) (jh : JobHandler) (s : σ) : DState σ :=
  { jh := jh, env := s, nextIdx := 0,
    tokens := if limitBounded d limit then (limitEff d limit).toNat else 0,
    active := [], finished := [] }

/-- One interleaving step of the dispatcher/workers.  `spawn` is the
dispatcher taking a token (when bounded) and starting the goroutine for
the next index; `finish` is a worker returning from `fn(i)`, calling
`Done()` (which must not panic), and returning its token. -/
inductive DStep {σ : Type} (fn : Nat → σ → σ) (d : Nat) (limit : Int) :
    DState σ → DState σ → Prop where
  | spawn (s : DState σ) (hidx : s.nextIdx < d)
      (htok : limitBounded d limit → 0 < s.tokens) :
      DStep fn d limit s
        { s with nextIdx := s.nextIdx + 1,
                 tokens := if limitBounded d limit then s.tokens - 1 else s.tokens,
                 active := s.nextIdx :: s.active }
  | finish (s : DState σ) (i : Nat) (jh1 : JobHandler) (hmem : i ∈ s.active)
      (hdone : Done s.jh = .ok () jh1) :
      DStep fn d limit s
        { s with active := s.active.erase i,
                 finished := i :: s.finished,
                 tokens := if limitBounded d limit then s.tokens + 1 else s.tokens,
                 jh := jh1,
                 env := fn i s.env }

/-- Dispatch states reachable from `initDState d limit jh s`. -/
inductive DReach {σ : Type} (fn : Nat → σ → σ) (d : Nat) (limit : Int)
    (jh : JobHandler) (s : σ) : DState σ → Prop where
  | init : DReach fn d limit jh s (initDState d limit jh s)
  | step {t t1 : DState σ} : DReach fn d limit jh s t → DStep fn d limit t t1 →
      DReach fn d limit jh s t1

/-- `TryNFuncAsync(delta, limit, fn)`: the value sent on the returned
buffered channel together with what starts running: `none` when the
admission failed (no goroutine is spawned, `fn` is never called), or the
initial dispatch state when the batch was admitted. -/
def TryNFuncAsync {σ : Type} (fn : Nat → σ → σ) (delta limit : Int)
    (jh : JobHandler) (s : σ) : Res (Bool × Option (DState σ)) :=
  match TryN delta jh with
  | .panicked m j => .panicked m j
  | .ok false j => .ok (false, none) j
  | .ok true j => .ok (true, some (initDState delta.toNat limit j s)) j

/-- The data-model invariant of the spec: nonnegative count, at least
the phantom unit while running, and the WaitGroup tracker equal to the
count. -/
def JHInv (jh : JobHandler) : Prop :=
  0 ≤ jh.n ∧ (jh.running = true → 1 ≤ jh.n) ∧ jh.wg = jh.n

instance (jh : JobHandler) : Decidable (JHInv jh) := by
  unfold JHInv; infer_instance

/-- Bookkeeping invariant along an instrumented run: the tracker mirrors
the count, the count is the phantom bias plus admissions minus
completions, and a running handler owns an open allocated stop
channel. -/
def RunInv (jh : JobHandler) (a c : Int) : Prop :=
  jh.wg = jh.n ∧ 0 ≤ jh.n ∧ (jh.running = true → 1 ≤ jh.n) ∧
  (jh.running = true → jh.stopChan = some false) ∧
  jh.n = (if jh.running = true then 1 else 0) + a - c

/-- The effective concurrency bound of the claim: `limit` when
`0 < limit < delta`, otherwise `delta`. -/
def concurrencyBound (d : Nat) (limit : Int) : Nat :=
  if limit ≤ 0 ∨ (d : Int) ≤ limit then d else limit.toNat

/-- Inductive invariant of the dispatcher: indices below the loop
counter, spawned exactly once, token conservation when bounded, and the
handler/external state driven by one `Done`/`fn` per finished index. -/
def DInv {σ : Type} (fn : Nat → σ → σ) (d : Nat) (limit : Int)
    (jh0 : JobHandler) (s0 : σ) (s : DState σ) : Prop :=
  s.nextIdx ≤ d ∧
  (∀ i ∈ s.active, i < s.nextIdx) ∧
  (∀ i ∈ s.finished, i < s.nextIdx) ∧
  (s.active ++ s.finished).Nodup ∧
  s.active.length + s.finished.length = s.nextIdx ∧
  (limitBounded d limit → s.tokens + s.active.length = (limitEff d limit).toNat) ∧
  s.jh.n = jh0.n - s.finished.length ∧
  s.jh.wg = jh0.wg - s.finished.length ∧
  s.env = s.finished.foldr fn s0

/-! ## Helper lemmas -/

/-- Shape of the state returned by a non-panicking `Done`. -/
theorem Done_ok_eq {jh jh1 : JobHandler} (h : Done jh = .ok () jh1) :
    jh1 = { jh with n := jh.n - 1, wg := jh.wg - 1 } := by
  unfold Done at h
  split_ifs at h with h1 h2
  exact (Res.ok.injEq _ _ _ _).mp h |>.2.symm

/-- A non-panicking `Done` requires the decremented count to stay
admissible. -/
theorem Done_ok_conds {jh jh1 : JobHandler} (h : Done jh = .ok () jh1) :
    0 ≤ jh.n - 1 ∧ ¬(jh.n - 1 = 0 ∧ jh.running = true) := by
  unfold Done at h
  split_ifs at h with h1 h2
  exact ⟨by omega, h2⟩

/-- `Done` succeeds whenever the decrement keeps the count admissible. -/
theorem Done_ok_of_conds {jh : JobHandler} (h1 : 0 ≤ jh.n - 1)
    (h2 : ¬(jh.n - 1 = 0 ∧ jh.running = true)) :
    Done jh = .ok () { jh with n := jh.n - 1, wg := jh.wg - 1 } := by
  unfold Done
  rw [if_neg (by omega), if_neg h2]

/-- `Stop` succeeds on an already stopped handler with no change;
otherwise the ok outcome is the full state transition. -/
theorem Stop_ok_state {jh : JobHandler} {b : Bool} {j : JobHandler}
    (h : Stop jh = .ok b j) :
    (b = false ∧ j = jh) ∨
    (b = true ∧ jh.running = true ∧ 1 ≤ jh.n ∧ jh.stopChan = some false ∧
      j = { jh with running := false, n := jh.n - 1, stopChan := some true, wg := jh.wg - 1 }) := by
  unfold Stop at h
  split_ifs at h with c1 c2 <;>
    first
      | exact Res.noConfusion h
      | (injection h with hb hj
         exact Or.inl ⟨hb.symm, hj.symm⟩)
      | (rcases hsc : jh.stopChan with _ | cb
         · rw [hsc] at h
           exact Res.noConfusion h
         · rcases cb <;> rw [hsc] at h
           · injection h with hb hj
             refine Or.inr ⟨hb.symm, ?_, by omega, rfl, hj.symm⟩
             cases hb2 : jh.running
             · exact absurd hb2 c1
             · rfl
           · exact Res.noConfusion h)

/-- The non-panicking outcomes of `TryN`: either a failure leaving the
state unchanged, or the successful atomic addition of `delta` to both
counters. -/
theorem TryN_ok_state {d : Int} {jh : JobHandler} {b : Bool} {j : JobHandler}
    (h : TryN d jh = .ok b j) :
    (b = false ∧ j = jh) ∨
    (b = true ∧ 0 ≤ d ∧ jh.running = true ∧ 0 < jh.n ∧
      j = { jh with n := jh.n + d, wg := jh.wg + d }) := by
  unfold TryN at h
  split_ifs at h with c1 c2 c3 c4 <;>
    first
      | exact Res.noConfusion h
      | (injection h with hb hj
         exact Or.inl ⟨hb.symm, hj.symm⟩)
      | (injection h with hb hj
         refine Or.inr ⟨hb.symm, by omega, ?_, by omega, hj.symm⟩
         cases hb2 : jh.running
         · exact absurd hb2 c2
         · rfl)

/-- `TryN` succeeds on a running handler with a positive count. -/
theorem TryN_ok_of (d : Int) {jh : JobHandler} (hd : 0 ≤ d)
    (hr : jh.running = true) (hn : 0 < jh.n) :
    TryN d jh = .ok true { jh with n := jh.n + d, wg := jh.wg + d } := by
  unfold TryN
  rw [if_neg (by omega), if_neg (by simp [hr]), if_neg (by omega), if_neg (by omega)]

/-! ## Claim theorems -/

/-- Claim C2: on any handler state satisfying the data-model invariants
(`count >= 0`, and `count >= 1` while running), `TryN delta` returns
false with no state change when `delta` is negative, when the handler is
not running (hence after any `Stop`, even with `delta = 0`), or when the
observed count is zero; otherwise it atomically adds `delta` to both the
count and the WaitGroup tracker and returns true; and `TryN 0` on a
running handler succeeds with literally unchanged state. -/
theorem tryN_admission_spec (jh : JobHandler) (delta : Int)
    (hpos : 0 ≤ jh.n) (hrun : jh.running = true → 1 ≤ jh.n) :
    ((delta < 0 ∨ jh.running = false ∨ jh.n = 0) → TryN delta jh = .ok false jh) ∧
    (0 ≤ delta → jh.running = true → jh.n ≠ 0 →
      TryN delta jh = .ok true { jh with n := jh.n + delta, wg := jh.wg + delta }) ∧
    (jh.running = true → TryN 0 jh = .ok true jh) := by
  refine ⟨?_, ?_, ?_⟩
  · rintro (h | h | h) <;> unfold TryN
    · rw [if_pos h]
    · rw [h]; simp
    · rw [h]; simp
  · intro hd hr hn
    exact TryN_ok_of delta hd hr (by omega)
  · intro hr
    have h1 : 1 ≤ jh.n := hrun hr
    have h := TryN_ok_of 0 le_rfl hr (by omega)
    simpa using h

/-- Witness for C2 at a concrete running handler with one admitted job. -/
theorem tryN_admission_spec_witness :
    TryN 3 New = .ok true { n := 4, stopChan := some false, running := true, wg := 4 } := by
  have h := (tryN_admission_spec New 3 (by decide) (fun _ => by decide)).2.1
    (by decide) (by decide) (by decide)
  rw [h]
  decide

/-- Claim C4: a non-faulting `Done` decrements both the count and the
WaitGroup tracker by exactly one (and changes nothing else); `Done`
faults, with a panic rather than an error value, exactly when the
decrement makes the count negative or makes it zero while the handler is
still running; and it never faults when the handler is stopped with
count at least 1 or running with count at least 2. -/
theorem done_contract (jh : JobHandler) :
    (∀ jh1, Done jh = .ok () jh1 → jh1 = { jh with n := jh.n - 1, wg := jh.wg - 1 }) ∧
    ((∃ m jh1, Done jh = .panicked m jh1) ↔
      (jh.n - 1 < 0 ∨ (jh.n - 1 = 0 ∧ jh.running = true))) ∧
    ((jh.running = false ∧ 1 ≤ jh.n) ∨ (jh.running = true ∧ 2 ≤ jh.n) →
      Done jh = .ok () { jh with n := jh.n - 1, wg := jh.wg - 1 }) := by
  refine ⟨fun jh1 h => Done_ok_eq h, ⟨?_, ?_⟩, ?_⟩
  · rintro ⟨m, jh1, h⟩
    by_contra hcon
    push_neg at hcon
    obtain ⟨hc1, hc2⟩ := hcon
    rw [Done_ok_of_conds (by omega) (by rintro ⟨h0, h1⟩; exact hc2 h0 h1)] at h
    exact Res.noConfusion h
  · rintro (h | h) <;> unfold Done
    · rw [if_pos h]
      exact ⟨_, _, rfl⟩
    · rw [if_neg (by omega), if_pos h]
      exact ⟨_, _, rfl⟩
  · rintro (⟨hr, hn⟩ | ⟨hr, hn⟩)
    · exact Done_ok_of_conds (by omega) (by simp [hr])
    · exact Done_ok_of_conds (by omega) (by rintro ⟨h0, _⟩; omega)

/-- Witness for C4: `Done` on a running handler with two units. -/
theorem done_contract_witness :
    Done { n := 2, stopChan := some false, running := true, wg := 2 } =
      .ok () { n := 1, stopChan := some false, running := true, wg := 1 } := by
  have h := (done_contract { n := 2, stopChan := some false, running := true, wg := 2 }).2.2
    (Or.inr ⟨rfl, by decide⟩)
  rw [h]
  decide

/-- Claim C5: the first `Stop` on a running handler (which, in any state
produced by the operations, has `count >= 1` and an open allocated stop
channel) flips `running` to false, decrements both the count and the
WaitGroup tracker by one, closes the stop channel, and returns true;
`Stop` on an already stopped handler returns false with no change at
all. -/
theorem stop_contract (jh : JobHandler) :
    (jh.running = true → 1 ≤ jh.n → jh.stopChan = some false →
      Stop jh = .ok true { jh with running := false, n := jh.n - 1, stopChan := some true, wg := jh.wg - 1 }) ∧
    (jh.running = false → Stop jh = .ok false jh) := by
  constructor
  · intro hr hn hc
    unfold Stop
    rw [if_neg (by simp [hr]), if_neg (by omega), hc]
  · intro hr
    unfold Stop
    rw [if_pos hr]

/-- Witness for C5: stopping a fresh handler removes the phantom unit
and closes the channel; stopping it again is a no-op. -/
theorem stop_contract_witness :
    Stop New = .ok true { n := 0, stopChan := some true, running := false, wg := 0 } ∧
    Stop { n := 0, stopChan := some true, running := false, wg := 0 } =
      .ok false { n := 0, stopChan := some true, running := false, wg := 0 } := by
  constructor
  · have h := (stop_contract New).1 (by decide) (by decide) (by decide)
    rw [h]
    decide
  · exact (stop_contract { n := 0, stopChan := some true, running := false, wg := 0 }).2
      (by decide)

/-- Claim C6: the zero-value handler is valid and already stopped: every
admission with any `delta` (including 0) fails with no state change,
`Stopped` is true, `WaitAll` returns immediately, and `Stop` returns
false — and none of these operations panic. -/
theorem zero_handler_contract :
    (∀ delta : Int, TryN delta zeroJH = .ok false zeroJH) ∧
    Stopped zeroJH = true ∧
    WaitAllReturns zeroJH ∧
    Stop zeroJH = .ok false zeroJH := by
  refine ⟨fun delta => ?_, by decide, by decide, by decide⟩
  unfold TryN zeroJH
  simp

/-- Claim C9: the zero-value handler's stop channel is nil, so even
though the handler is stopped the stop signal is never observable:
`TrySleep` is never cut short (always returns true, whatever the
environment does), and `OnStop` hands out the nil channel, which is
never signalled and blocks any receiver forever. -/
theorem zero_handler_nil_stop_channel :
    OnStop zeroJH = none ∧
    closedChan (OnStop zeroJH) = false ∧
    (∀ stopFires : Bool, TrySleep zeroJH stopFires = true) := by
  exact ⟨rfl, rfl, fun _ => rfl⟩

/-- Claim C10: a faulting `Done` is not atomic: at the moment of the
panic the counter decrement has already been applied (the count is left
at the out-of-contract value), while the WaitGroup tracker, the running
flag, and the stop channel are untouched. -/
theorem done_fault_partial_state (jh jh1 : JobHandler) (m : String)
    (h : Done jh = .panicked m jh1) :
    jh1.n = jh.n - 1 ∧ jh1.wg = jh.wg ∧ jh1.running = jh.running ∧
    jh1.stopChan = jh.stopChan := by
  unfold Done at h
  split_ifs at h with h1 h2 <;>
    first
      | exact Res.noConfusion h
      | (injection h with hm hj
         subst hj
         exact ⟨rfl, rfl, rfl, rfl⟩)

/-- Witness for C10: `Done` on the zero-value handler panics with
"negative job count", leaving the counter at -1 and the tracker at 0. -/
theorem done_fault_partial_state_witness :
    ({ n := -1, stopChan := none, running := false, wg := 0 } : JobHandler).n = zeroJH.n - 1 ∧
    ({ n := -1, stopChan := none, running := false, wg := 0 } : JobHandler).wg = zeroJH.wg ∧
    ({ n := -1, stopChan := none, running := false, wg := 0 } : JobHandler).running = zeroJH.running ∧
    ({ n := -1, stopChan := none, running := false, wg := 0 } : JobHandler).stopChan = zeroJH.stopChan :=
  done_fault_partial_state zeroJH
    { n := -1, stopChan := none, running := false, wg := 0 } "negative job count" (by decide)

/-- Claim C7: `TryFunc fn` returns exactly the admission outcome of one
unit; on failure `fn` is never executed and the handler is unchanged; on
success `fn` is executed exactly once and the completion is reported
automatically afterwards, so the handler's counters end up exactly where
they started and the caller must not call `Done` again. -/
theorem tryFunc_contract {σ : Type} (fn : σ → σ) (jh : JobHandler) (s : σ)
    (hpos : 0 ≤ jh.n) :
    (¬(jh.running = true ∧ 0 < jh.n) → TryFunc fn jh s = (.ok false jh, s)) ∧
    ((jh.running = true ∧ 0 < jh.n) → TryFunc fn jh s = (.ok true jh, fn s)) := by
  constructor
  · intro hc
    unfold TryFunc Try
    rcases hb : jh.running with _ | _
    · rw [show TryN 1 jh = .ok false jh by unfold TryN; rw [hb]; simp]
    · have hn : jh.n = 0 := by
        by_contra hn0
        exact hc ⟨hb, by omega⟩
      rw [show TryN 1 jh = .ok false jh by unfold TryN; rw [hn]; simp]
  · rintro ⟨hr, hn⟩
    unfold TryFunc Try
    rw [TryN_ok_of 1 (by omega) hr hn]
    dsimp only
    rw [Done_ok_of_conds (by show (0:Int) ≤ jh.n + 1 - 1; omega)
      (by rintro ⟨h0, _⟩; simp at h0; omega)]
    simp

/-- Witness for C7: on a fresh handler, `TryFunc` runs the function once
and restores the handler. -/
theorem tryFunc_contract_witness :
    TryFunc Nat.succ New 0 = (.ok true New, 1) :=
  (tryFunc_contract Nat.succ New 0 (by decide)).2 ⟨by decide, by decide⟩

/-- Claim C3: the invariant holds at both entry points (the zero value
and `New`) and is preserved by every non-faulting admission, completion,
and stop operation. -/
theorem state_invariant_preserved :
    JHInv zeroJH ∧ JHInv New ∧
    (∀ (jh : JobHandler) (op : Op) (jh1 : JobHandler),
      JHInv jh → applyOp jh op = .ok () jh1 → JHInv jh1) := by
  refine ⟨by decide, by decide, ?_⟩
  rintro jh op jh1 ⟨h0, h1, h2⟩ h
  cases op with
  | tryN d =>
    simp only [applyOp] at h
    rcases hTN : TryN d jh with ⟨b, j⟩ | ⟨m, j⟩ <;> rw [hTN] at h <;>
      simp only [Res.map] at h
    · injection h with _ hj
      subst hj
      rcases TryN_ok_state hTN with ⟨_, hj⟩ | ⟨_, hd, hr, hn, hj⟩ <;> subst hj
      · exact ⟨h0, h1, h2⟩
      · exact ⟨by simp; omega, fun _ => by simp; omega, by simp; omega⟩
    · exact Res.noConfusion h
  | done =>
    simp only [applyOp] at h
    have hj := Done_ok_eq h
    have hc := Done_ok_conds h
    subst hj
    refine ⟨by simp; omega, fun hr => ?_, by simp; omega⟩
    simp only []
    have : ¬(jh.n - 1 = 0) := fun h0 => hc.2 ⟨h0, by simpa using hr⟩
    simp
    omega
  | stop =>
    simp only [applyOp] at h
    rcases hST : Stop jh with ⟨b, j⟩ | ⟨m, j⟩ <;> rw [hST] at h <;>
      simp only [Res.map] at h
    · injection h with _ hj
      subst hj
      rcases Stop_ok_state hST with ⟨_, hj⟩ | ⟨_, hr, hn, hc, hj⟩ <;> subst hj
      · exact ⟨h0, h1, h2⟩
      · exact ⟨by simp; omega, by simp, by simp; omega⟩
    · exact Res.noConfusion h

/-- Witness for C3: the invariant survives stopping a fresh handler. -/
theorem state_invariant_preserved_witness :
    JHInv { n := 0, stopChan := some true, running := false, wg := 0 } :=
  state_invariant_preserved.2.2 New Op.stop
    { n := 0, stopChan := some true, running := false, wg := 0 } (by decide) (by decide)

/-- `RunInv` is preserved by every non-panicking trace. -/
theorem runC_inv : ∀ (t : List Op) (jh : JobHandler) (a c : Int)
    (r : JobHandler × Int × Int), RunInv jh a c → runC jh a c t = some r →
    RunInv r.1 r.2.1 r.2.2 := by
  intro t
  induction t with
  | nil =>
    intro jh a c r hInv h
    simp only [runC] at h
    injection h with h
    subst h
    exact hInv
  | cons op rest ih =>
    intro jh a c r hInv h
    obtain ⟨h1, h2, h3, h4, h5⟩ := hInv
    cases op with
    | tryN d =>
      simp only [runC] at h
      rcases hTN : TryN d jh with ⟨b, j⟩ | ⟨m, j⟩ <;> rw [hTN] at h
      · rcases b
        · refine ih j a c r ?_ h
          rcases TryN_ok_state hTN with ⟨_, hj⟩ | ⟨hb, _⟩
          · subst hj; exact ⟨h1, h2, h3, h4, h5⟩
          · exact absurd hb (by simp)
        · refine ih j (a + d) c r ?_ h
          rcases TryN_ok_state hTN with ⟨hb, _⟩ | ⟨_, hd, hr, hn, hj⟩
          · exact absurd hb (by simp)
          · subst hj
            simp [hr] at h5
            refine ⟨by simp; omega, by simp; omega, fun _ => by simp; omega,
              fun _ => by simpa using h4 hr, ?_⟩
            simp [hr]
            omega
      · exact Option.noConfusion h
    | done =>
      simp only [runC] at h
      rcases hD : Done jh with ⟨u, j⟩ | ⟨m, j⟩ <;> rw [hD] at h
      · refine ih j a (c + 1) r ?_ h
        have hj := Done_ok_eq hD
        have hc := Done_ok_conds hD
        subst hj
        refine ⟨by simp; omega, by simp; omega, fun hr => ?_, fun hr => by simpa using h4 hr, ?_⟩
        · have : ¬(jh.n - 1 = 0) := fun h0 => hc.2 ⟨h0, by simpa using hr⟩
          simp
          omega
        · simp only []
          rcases hb : jh.running
          · simp [hb] at h5 ⊢
            omega
          · simp [hb] at h5 ⊢
            omega
      · exact Option.noConfusion h
    | stop =>
      simp only [runC] at h
      rcases hS : Stop jh with ⟨b, j⟩ | ⟨m, j⟩ <;> rw [hS] at h
      · refine ih j a c r ?_ h
        rcases Stop_ok_state hS with ⟨_, hj⟩ | ⟨_, hr, hn, hco, hj⟩
        · subst hj; exact ⟨h1, h2, h3, h4, h5⟩
        · subst hj
          simp [hr] at h5
          refine ⟨by simp; omega, by simp; omega, by simp, by simp, ?_⟩
          simp
          omega
      · exact Option.noConfusion h

/-- Once stopped and drained, the handler is frozen: every further
non-panicking operation leaves the state untouched. -/
theorem runC_quiesced : ∀ (t : List Op) (jh : JobHandler) (a c : Int)
    (r : JobHandler × Int × Int), jh.running = false → jh.n = 0 →
    runC jh a c t = some r → r.1 = jh := by
  intro t
  induction t with
  | nil =>
    intro jh a c r _ _ h
    simp only [runC] at h
    injection h with h
    subst h
    rfl
  | cons op rest ih =>
    intro jh a c r hr hn h
    cases op with
    | tryN d =>
      simp only [runC] at h
      have hTN : TryN d jh = .ok false jh := by
        unfold TryN
        rw [hr]
        simp
      rw [hTN] at h
      exact ih jh a c r hr hn h
    | done =>
      simp only [runC] at h
      have hD : Done jh = .panicked "negative job count" { jh with n := jh.n - 1 } := by
        unfold Done
        rw [if_pos (by omega)]
      rw [hD] at h
      exact Option.noConfusion h
    | stop =>
      simp only [runC] at h
      have hS : Stop jh = .ok false jh := by
        unfold Stop
        rw [if_pos hr]
      rw [hS] at h
      exact ih jh a c r hr hn h

/-- Claim C1: for every non-panicking trace of admissions, completions
and stops run from a fresh handler, `WaitAll` returns exactly when the
handler has been stopped and every admitted unit has completed
(admission total = completion total), whatever the interleaving of
completions and stop; and once quiesced, `WaitAll` keeps returning
immediately after any further non-panicking operations. -/
theorem waitAll_quiescence (t : List Op) (jh1 : JobHandler) (a c : Int)
    (h : runC New 0 0 t = some (jh1, a, c)) :
    (WaitAllReturns jh1 ↔ (jh1.running = false ∧ a = c)) ∧
    (WaitAllReturns jh1 → ∀ (t2 : List Op) (r : JobHandler × Int × Int),
      runC jh1 a c t2 = some r → WaitAllReturns r.1) := by
  have hInv : RunInv jh1 a c := by
    have h0 : RunInv New 0 0 := by
      refine ⟨rfl, by decide, fun _ => by decide, fun _ => rfl, by decide⟩
    simpa using runC_inv t New 0 0 (jh1, a, c) h0 h
  obtain ⟨h1, h2, h3, h4, h5⟩ := hInv
  have hiff : WaitAllReturns jh1 ↔ (jh1.running = false ∧ a = c) := by
    unfold WaitAllReturns
    constructor
    · intro hwg
      have hn : jh1.n = 0 := by omega
      have hrf : jh1.running = false := by
        rcases hb : jh1.running
        · rfl
        · have := h3 hb
          omega
      rw [hrf] at h5
      simp at h5
      exact ⟨hrf, by omega⟩
    · rintro ⟨hrf, hac⟩
      rw [hrf] at h5
      simp at h5
      omega
  refine ⟨hiff, fun hwg t2 r hrun => ?_⟩
  have hn : jh1.n = 0 := by
    unfold WaitAllReturns at hwg
    omega
  have hrf : jh1.running = false := (hiff.mp hwg).1
  have hfr := runC_quiesced t2 jh1 a c r hrf hn hrun
  show r.1.wg = 0
  rw [hfr]
  exact hwg

/-- Witness for C1 on the trace admit 1, complete it, stop. -/
theorem waitAll_quiescence_witness :
    runC New 0 0 [Op.tryN 1, Op.done, Op.stop] =
      some ({ n := 0, stopChan := some true, running := false, wg := 0 }, 1, 1) ∧
    WaitAllReturns ({ n := 0, stopChan := some true, running := false, wg := 0 } : JobHandler) := by
  constructor
  · decide
  · exact (waitAll_quiescence [Op.tryN 1, Op.done, Op.stop]
      { n := 0, stopChan := some true, running := false, wg := 0 } 1 1 (by decide)).1.mpr
      ⟨rfl, rfl⟩

/-! ## Invariants of the bounded dispatch -/

/-- The invariant holds at the initial dispatch state. -/
theorem DInv_init {σ : Type} (fn : Nat → σ → σ) (d : Nat) (limit : Int)
    (jh0 : JobHandler) (s0 : σ) :
    DInv fn d limit jh0 s0 (initDState d limit jh0 s0) := by
  unfold DInv initDState
  refine ⟨Nat.zero_le d, by simp, by simp, by simp, by simp, ?_, by simp, by simp, by simp⟩
  intro hb
  simp [hb]

/-- The invariant is preserved by every dispatcher/worker step. -/
theorem DInv_step {σ : Type} {fn : Nat → σ → σ} {d : Nat} {limit : Int}
    {jh0 : JobHandler} {s0 : σ} {s s1 : DState σ}
    (hInv : DInv fn d limit jh0 s0 s) (hs : DStep fn d limit s s1) :
    DInv fn d limit jh0 s0 s1 := by
  obtain ⟨q1, q2, q3, q4, q5, q6, q7, q8, q9⟩ := hInv
  cases hs with
  | spawn hidx htok =>
    refine ⟨by simp; omega, ?_, ?_, ?_, ?_, ?_, q7, q8, q9⟩
    · intro i hi
      simp at hi ⊢
      rcases hi with rfl | hi
      · omega
      · have := q2 i hi
        omega
    · intro i hi
      simp at hi ⊢
      have := q3 i hi
      omega
    · show ((s.nextIdx :: s.active) ++ s.finished).Nodup
      simp only [List.cons_append, List.nodup_cons]
      refine ⟨?_, q4⟩
      intro hmem
      rcases List.mem_append.mp hmem with hmem | hmem
      · exact absurd (q2 _ hmem) (by omega)
      · exact absurd (q3 _ hmem) (by omega)
    · show (s.nextIdx :: s.active).length + s.finished.length = s.nextIdx + 1
      simp
      omega
    · intro hb
      have h6 := q6 hb
      have ht := htok hb
      show (if limitBounded d limit then s.tokens - 1 else s.tokens) +
        (s.nextIdx :: s.active).length = (limitEff d limit).toNat
      rw [if_pos hb]
      simp
      omega
  | finish i jh1 hmem hdone =>
    have hj := Done_ok_eq hdone
    subst hj
    have hlen : 0 < s.active.length := List.length_pos.mpr (List.ne_nil_of_mem hmem)
    have herase : (s.active.erase i).length = s.active.length - 1 :=
      List.length_erase_of_mem hmem
    refine ⟨q1, ?_, ?_, ?_, ?_, ?_, ?_, ?_, ?_⟩
    · intro x hx
      exact q2 x (List.mem_of_mem_erase hx)
    · intro x hx
      rcases List.mem_cons.mp hx with rfl | hx
      · exact q2 _ hmem
      · exact q3 x hx
    · show (s.active.erase i ++ i :: s.finished).Nodup
      have hpa : s.active.Perm (i :: s.active.erase i) := List.perm_cons_erase hmem
      have h1p : (s.active ++ s.finished).Perm (i :: (s.active.erase i ++ s.finished)) :=
        hpa.append_right _
      have h2p : (s.active.erase i ++ i :: s.finished).Perm
          (i :: (s.active.erase i ++ s.finished)) := List.perm_middle
      exact ((h2p.trans h1p.symm).symm).nodup q4
    · show (s.active.erase i).length + (i :: s.finished).length = s.nextIdx
      rw [herase]
      simp
      omega
    · intro hb
      have h6 := q6 hb
      show (if limitBounded d limit then s.tokens + 1 else s.tokens) +
        (s.active.erase i).length = (limitEff d limit).toNat
      rw [if_pos hb, herase]
      omega
    · show s.jh.n - 1 = jh0.n - (i :: s.finished).length
      simp
      omega
    · show s.jh.wg - 1 = jh0.wg - (i :: s.finished).length
      simp
      omega
    · show fn i s.env = (i :: s.finished).foldr fn s0
      rw [q9]
      rfl

/-- Every reachable dispatch state satisfies the invariant. -/
theorem DReach_inv {σ : Type} {fn : Nat → σ → σ} {d : Nat} {limit : Int}
    {jh0 : JobHandler} {s0 : σ} {t : DState σ}
    (h : DReach fn d limit jh0 s0 t) : DInv fn d limit jh0 s0 t := by
  induction h with
  | init => exact DInv_init fn d limit jh0 s0
  | step _ hstep ih => exact DInv_step ih hstep

/-- The invariant bounds the number of simultaneously active workers. -/
theorem DInv_active_le {σ : Type} {fn : Nat → σ → σ} {d : Nat} {limit : Int}
    {jh0 : JobHandler} {s0 : σ} {t : DState σ}
    (hInv : DInv fn d limit jh0 s0 t) :
    t.active.length ≤ concurrencyBound d limit := by
  obtain ⟨q1, _, _, _, q5, q6, _, _, _⟩ := hInv
  unfold concurrencyBound
  split_ifs with hb
  · omega
  · push_neg at hb
    obtain ⟨hb1, hb2⟩ := hb
    have hbounded : limitBounded d limit := by
      unfold limitBounded limitEff
      rw [if_neg (by omega)]
      omega
    have h6 := q6 hbounded
    have heff : (limitEff d limit).toNat = limit.toNat := by
      unfold limitEff
      rw [if_neg (by omega)]
    omega

/-- Claim C8: `TryNFuncAsync` admits the `delta` units all-or-nothing
and reports the boolean outcome on the returned channel (failure spawns
nothing and calls `fn` on nothing); after a successful admission, every
dispatch state reachable by any interleaving keeps at most
`concurrencyBound` workers active at once (at most `limit` when
`0 < limit < delta`, otherwise at most `delta`), and in every terminal
state each index of `[0, delta)` has run exactly once in some order,
with one automatic completion per index, so the handler's counters have
dropped by exactly `delta`. -/
theorem tryNFuncAsync_contract {σ : Type} (fn : Nat → σ → σ) (delta limit : Int)
    (jh jh1 : JobHandler) (s0 : σ) :
    (TryN delta jh = .ok false jh1 →
      TryNFuncAsync fn delta limit jh s0 = .ok (false, none) jh1) ∧
    (TryN delta jh = .ok true jh1 →
      TryNFuncAsync fn delta limit jh s0 =
        .ok (true, some (initDState delta.toNat limit jh1 s0)) jh1) ∧
    (∀ t : DState σ, DReach fn delta.toNat limit jh1 s0 t →
      t.active.length ≤ concurrencyBound delta.toNat limit) ∧
    (∀ t : DState σ, DReach fn delta.toNat limit jh1 s0 t →
      t.nextIdx = delta.toNat → t.active = [] →
      t.finished.Nodup ∧ (∀ i : Nat, i ∈ t.finished ↔ i < delta.toNat) ∧
      t.env = t.finished.foldr fn s0 ∧
      t.jh.n = jh1.n - delta.toNat ∧ t.jh.wg = jh1.wg - delta.toNat) := by
  refine ⟨?_, ?_, ?_, ?_⟩
  · intro h
    unfold TryNFuncAsync
    rw [h]
  · intro h
    unfold TryNFuncAsync
    rw [h]
  · intro t ht
    exact DInv_active_le (DReach_inv ht)
  · intro t ht hidx hact
    obtain ⟨q1, q2, q3, q4, q5, q6, q7, q8, q9⟩ := DReach_inv ht
    have hnd : t.finished.Nodup := by
      rw [hact] at q4
      simpa using q4
    have hlen : t.finished.length = delta.toNat := by
      rw [hact] at q5
      simpa [hidx] using q5
    have hmemiff : ∀ i : Nat, i ∈ t.finished ↔ i < delta.toNat := by
      have hsub : t.finished.toFinset ⊆ Finset.range delta.toNat := by
        intro x hx
        rw [List.mem_toFinset] at hx
        rw [Finset.mem_range, ← hidx]
        exact q3 x hx
      have hcard : (Finset.range delta.toNat).card ≤ t.finished.toFinset.card := by
        rw [List.toFinset_card_of_nodup hnd, hlen, Finset.card_range]
      have heq : t.finished.toFinset = Finset.range delta.toNat :=
        Finset.eq_of_subset_of_card_le hsub hcard
      intro i
      rw [← List.mem_toFinset, heq, Finset.mem_range]
    refine ⟨hnd, hmemiff, q9, ?_, ?_⟩
    · rw [q7, hlen]
    · rw [q8, hlen]

/-- Witness for C8: one unit, limit 1, on a handler that has just
admitted it; the single worker spawns, runs, and completes. -/
theorem tryNFuncAsync_contract_witness :
    TryNFuncAsync (fun i e => e + i + 1) 1 1 New (0 : Nat) =
      .ok (true,
        some (initDState (1 : Int).toNat 1
          { n := 2, stopChan := some false, running := true, wg := 2 } 0))
        { n := 2, stopChan := some false, running := true, wg := 2 } ∧
    ({ jh := { n := 1, stopChan := some false, running := true, wg := 1 }, env := 1,
       nextIdx := 1, tokens := 0, active := [], finished := [0] } : DState Nat).finished.Nodup := by
  have hthm := tryNFuncAsync_contract (fun i e => e + i + 1) 1 1 New
    { n := 2, stopChan := some false, running := true, wg := 2 } 0
  constructor
  · exact hthm.2.1 (by decide)
  · have h0 : DReach (fun i e => e + i + 1) (1 : Int).toNat 1
        { n := 2, stopChan := some false, running := true, wg := 2 } 0
        (initDState (1 : Int).toNat 1
          { n := 2, stopChan := some false, running := true, wg := 2 } 0) :=
      DReach.init
    have h1 := DReach.step h0 (DStep.spawn _ (by decide) (fun hb => absurd hb (by decide)))
    have h2 := DReach.step h1 (DStep.finish _ 0
      { n := 1, stopChan := some false, running := true, wg := 1 } (by decide) (by decide))
    have hterm := hthm.2.2.2 _ h2 (by decide) (by decide)
    exact hterm.1
